import Mathlib

/-!
Shallow embedding of the tabular search-and-aggregation logic of
`src/app.py` and `src/streamlit_app.py`.  The two files contain the same
`load_data` and `search_dataframe`; `generate_barplot` appears in
`src/app.py` only.

Modelling conventions:
* A dataframe is a `Table`: a column-name list plus ordered rows, each row
  an association list from column name to string value (after
  `fillna("")` every cell is a string, missing cells read as `""`).
* `Series.str.contains(search_str, case=False)` keeps its pandas default
  `regex=True`: the search string is a regular expression.  The embedding
  models the fragment of Python regular expressions built from literal
  characters and the `.` wildcard; `case=False` (re.IGNORECASE) is
  modelled by ASCII case folding of both pattern and text.
* The chart built by `generate_barplot` is embedded as the data pipeline
  its Vega-Lite transforms define: `transform_aggregate` counts rows per
  group, emitting groups in first-occurrence order; `transform_window`
  with `sort` descending by count orders groups by count (Vega-Lite
  sorting is stable, so equal counts keep their first-occurrence order)
  and `rank(count)` assigns ranks starting at 1 where peer values (equal
  counts) share a rank and a later non-peer gets its 1-based position;
  `transform_filter` keeps the entries with `datum.rank < top_n`.
* `df[column]` on a missing column raises `KeyError`, modelled as the
  `UnknownColumn` failure of the engine's error taxonomy.
-/

/-- A row of the dataframe: an association list from column name to the
textual cell value. -/
abbrev Row := List (String × String)

/-- The in-memory dataframe: a fixed column list plus the ordered rows. -/
structure Table where
  cols : List String
  rows : List Row
deriving Repr, DecidableEq

/-- Cell access `row[column]`; absent keys read as the normalized empty
string (the `fillna("")` discipline). -/
def getVal (r : Row) (c : String) : String := (r.lookup c).getD ""

/-- Failure taxonomy of the engine; `UnknownColumn` models the `KeyError`
raised by `df[column]` when the column is absent. -/
inductive EngineError
  | UnknownColumn
deriving Repr, DecidableEq

/-- Case folding performed by `case=False` (re.IGNORECASE), modelled as
ASCII lower-casing of every character. -/
def foldCase (s : String) : String := ⟨s.data.map Char.toLower⟩

/-- One token of the regular-expression fragment that
`Series.str.contains` (pandas default `regex=True`) applies to the search
string: a literal character or the `.` wildcard.  Patterns using other
metacharacters are outside the modelled fragment. -/
inductive RTok
  | dot
  | lit (c : Char)
deriving Repr, DecidableEq

/-- Parse the search string into the modelled regex fragment. -/
def parsePat (s : String) : List RTok :=
  s.data.map (fun c => if c = '.' then RTok.dot else RTok.lit c)

/-- Token-versus-character match: the `.` wildcard matches any character. -/
def tokMatches : RTok → Char → Bool
  | RTok.dot, _ => true
  | RTok.lit c, d => c = d

/-- Match the whole pattern at the start of the text. -/
def matchHere : List RTok → List Char → Bool
  | [], _ => true
  | _ :: _, [] => false
  | p :: ps, c :: cs => tokMatches p c && matchHere ps cs

/-- Search for a match at some position of the text, like `re.search`. -/
def searchFrom (pat : List RTok) : List Char → Bool
  | [] => matchHere pat []
  | c :: cs => matchHere pat (c :: cs) || searchFrom pat cs

/-- The per-cell predicate of `Series.str.contains(search_str, case=False)`:
case-insensitive regular-expression search of the pattern inside the cell
value. -/
def pyStrContains (value search_str : String) : Bool :=
  searchFrom (parsePat (foldCase search_str)) (foldCase value).data

/-- Whole-pattern literal match at the start of the text (helper for the
spec-side substring predicate). -/
def litHere : List Char → List Char → Bool
  | [], _ => true
  | _ :: _, [] => false
  | a :: as, b :: bs => a = b && litHere as bs

/-- Occurrence of a literal character sequence somewhere inside another. -/
def litOccurs (p : List Char) : List Char → Bool
  | [] => litHere p []
  | c :: cs => litHere p (c :: cs) || litOccurs p cs

/-- Modelled from the spec: the matching rule the specification states for
`search`, namely that the case-folded search string occurs literally as a
substring of the case-folded cell value.  It exists to compare the code's
regex behaviour against the spec's substring behaviour. -/
def specSubstringMatch (value search_str : String) : Bool :=
  litOccurs (foldCase search_str).data (foldCase value).data

/-- Embedding of `search_dataframe` (src/app.py lines 21-24 and
src/streamlit_app.py lines 32-35): keep the rows whose cell in `column`
satisfies `str.contains(search_str, case=False)`; accessing a missing
column fails with `UnknownColumn`. -/
def search_dataframe (df : Table) (column : String) (search_str : String) :
    Except EngineError Table :=
  if column ∈ df.cols then
    Except.ok ⟨df.cols, df.rows.filter (fun r => pyStrContains (getVal r column) search_str)⟩
  else
    Except.error EngineError.UnknownColumn

/-- Column values of all rows in order: the series the aggregation group-by
of `generate_barplot` runs over. -/
def colValues (t : Table) (c : String) : List String :=
  t.rows.map (fun r => getVal r c)

/-- One step of the aggregate transform's group table: increment the
group's count when present, otherwise append a fresh group at the end, so
groups appear in first-occurrence order. -/
def bump (g : String) : List (String × Nat) → List (String × Nat)
  | [] => [(g, 1)]
  | (h, n) :: rest => if g = h then (h, n + 1) :: rest else (h, n) :: bump g rest

/-- The `transform_aggregate(count by group)` of `generate_barplot`: fold
the column values left to right, maintaining the group table. -/
def aggCounts (vs : List String) : List (String × Nat) :=
  vs.foldl (fun acc v => bump v acc) []

/-- Stable insertion into a count-descending list: the inserted entry goes
after every existing entry with a strictly greater count and before equal
counts coming later in the input. -/
def insDesc (x : String × Nat) : List (String × Nat) → List (String × Nat)
  | [] => [x]
  | y :: ys => if y.2 ≤ x.2 then x :: y :: ys else y :: insDesc x ys

/-- The `transform_window` sort by count descending (stable, so equal
counts keep their first-occurrence order). -/
def sortCountDesc : List (String × Nat) → List (String × Nat)
  | [] => []
  | x :: xs => insDesc x (sortCountDesc xs)

/-- One bar of the chart: a group value, its count, and its window rank. -/
structure RankedEntry where
  group : String
  count : Nat
  rank : Nat
deriving Repr, DecidableEq

/-- The rank-window walk after the first entry: Vega's `rank()` gives a
peer (equal sort key, here equal count) the previous rank and a non-peer
its 1-based position. -/
def ranksFrom (pos prevC prevR : Nat) : List (String × Nat) → List RankedEntry
  | [] => []
  | (g, c) :: rest =>
    if c = prevC then ⟨g, c, prevR⟩ :: ranksFrom (pos + 1) c prevR rest
    else ⟨g, c, pos⟩ :: ranksFrom (pos + 1) c pos rest

/-- The `rank(count)` window assignment over the count-sorted group list;
the first entry gets rank 1. -/
def assignRanks : List (String × Nat) → List RankedEntry
  | [] => []
  | (g, c) :: rest => ⟨g, c, 1⟩ :: ranksFrom 2 c 1 rest

/-- Number of groups whose count is strictly above `c`. -/
def countGT (l : List (String × Nat)) (c : Nat) : Nat :=
  l.countP (fun y => c < y.2)

/-- Index of the first occurrence of `g` in a value list (the list's
length when `g` is absent). -/
def firstIdx (vs : List String) (g : String) : Nat :=
  match vs with
  | [] => 0
  | v :: vs => if v = g then 0 else 1 + firstIdx vs g

/-- Embedding of `generate_barplot` (src/app.py lines 32-49) as the data
pipeline its chart declares: aggregate counts by group, rank over the
count-descending order, and keep the entries whose rank is strictly below
`top_n` (the `transform_filter` condition is `datum.rank < top_n`).  The
pipeline is total: no validation of `top_n` happens anywhere. -/
def generate_barplot (results : Table) (count_column : String) (top_n : Int) :
    List RankedEntry :=
  (assignRanks (sortCountDesc (aggCounts (colValues results count_column)))).filter
    (fun e => (e.rank : Int) < top_n)

/-- The memo state of the `st.cache` decorator on `load_data`: parsed
tables keyed by file path.  Modelled from the spec (section 4.1): the
decorator's implementation is not part of src/, and the spec describes it
as a path-keyed compute-once cache. -/
structure LoadState where
  cache : List (String × Table)
deriving Repr, DecidableEq

/-- Embedding of `load_data` (src/app.py lines 13-16 and
src/streamlit_app.py lines 24-27).  The `pd.read_csv(...).fillna("")`
body performs file I/O, abstracted as the `parse` oracle.  Modelled from
the spec: the `st.cache` decorator wraps the body in path-keyed
memoization — a cache hit returns the stored table and performs no parse
(third component `false`), a miss invokes `parse` and stores a successful
result. -/
def load_data (parse : String → Option Table) (st : LoadState) (filepath : String) :
    Option Table × LoadState × Bool :=
  match st.cache.lookup filepath with
  | some t => (some t, st, false)
  | none =>
    match parse filepath with
    | some t => (some t, ⟨(filepath, t) :: st.cache⟩, true)
    | none => (none, st, true)

/-- Example corpus from the specification's concrete scenario. -/
def exTable : Table :=
  ⟨["title", "journal"],
   [[("title", "Covid vaccine trial"), ("journal", "Nature")],
    [("title", "Covid testing"), ("journal", "Science")],
    [("title", "Flu vaccine"), ("journal", "Nature")]]⟩

/-- The subset of `exTable` whose titles contain the word covid. -/
def exResult : Table :=
  ⟨["title", "journal"],
   [[("title", "Covid vaccine trial"), ("journal", "Nature")],
    [("title", "Covid testing"), ("journal", "Science")]]⟩

/-- One-row table whose single title is the three characters abc. -/
def exTableDot : Table := ⟨["title"], [[("title", "abc")]]⟩

/-- Three rows with three distinct journals: all groups tie at count 1. -/
def exTable3 : Table :=
  ⟨["journal"], [[("journal", "Nature")], [("journal", "Science")], [("journal", "Cell")]]⟩

/-- Two rows with two distinct journals: a two-way count tie. -/
def exTableTie : Table :=
  ⟨["journal"], [[("journal", "Nature")], [("journal", "Science")]]⟩

/-- Parse oracle used by the load witness: exactly one known path. -/
def exParse : String → Option Table :=
  fun p => if p = "litcovid.export.all.tsv" then some exTable else none

/-- The empty pattern matches at position zero of any text. -/
theorem searchFrom_nil (t : List Char) : searchFrom [] t = true := by
  cases t <;> simp [searchFrom, matchHere]

/-- Every cell value contains the empty search string. -/
theorem pyStrContains_empty (v : String) : pyStrContains v "" = true := by
  show searchFrom [] (foldCase v).data = true
  exact searchFrom_nil _

/-- C1: the claim fails on the code.  `search_dataframe` hands the search
string to `str.contains` with the pandas default `regex=True`, so the
string acts as a regular expression, not a literal substring (the
function's own docstring says substring).  Searching for "a.c" keeps the
row titled "abc", although "a.c" is not a case-folded substring of
"abc". -/
theorem search_regex_not_substring :
    search_dataframe exTableDot "title" "a.c" = Except.ok exTableDot ∧
      specSubstringMatch "abc" "a.c" = false := by
  exact ⟨rfl, rfl⟩

/-- C6: searching with the empty string keeps every row, in order,
including rows whose cell at the column is itself empty. -/
theorem search_empty_string (T : Table) (C : String) (h : C ∈ T.cols) :
    search_dataframe T C "" = Except.ok T := by
  unfold search_dataframe
  rw [if_pos h]
  cases T with
  | mk cols rows =>
    simp only [Except.ok.injEq, Table.mk.injEq, true_and]
    exact List.filter_eq_self.mpr (fun r _ => pyStrContains_empty (getVal r C))

/-- Witness for C6 at the example corpus. -/
theorem search_empty_string_witness :
    search_dataframe exTable "title" "" = Except.ok exTable :=
  search_empty_string exTable "title" (by decide)

/-- C7: a successful search returns a sublist of the table's rows, so any
two result rows keep their relative order from the table. -/
theorem search_preserves_order (T R : Table) (C s : String)
    (h : search_dataframe T C s = Except.ok R) : List.Sublist R.rows T.rows := by
  unfold search_dataframe at h
  split at h
  · injection h with h
    subst h
    exact List.filter_sublist T.rows
  · cases h

/-- Witness for C7: the covid search over the example corpus. -/
theorem search_preserves_order_witness : List.Sublist exResult.rows exTable.rows :=
  search_preserves_order exTable exResult "title" "covid" (by rfl)

/-- C8: the search fails with `UnknownColumn` exactly when the requested
column is not in the table's column set; the embedding is a pure function
of its inputs, so the table itself is never affected. -/
theorem search_unknown_column (T : Table) (C s : String) :
    search_dataframe T C s = Except.error EngineError.UnknownColumn ↔ C ∉ T.cols := by
  unfold search_dataframe
  by_cases h : C ∈ T.cols
  · rw [if_pos h]
    exact ⟨fun hh => Except.noConfusion hh, fun hh => absurd h hh⟩
  · rw [if_neg h]
    exact ⟨fun _ => h, fun _ => rfl⟩

/-- Witness for C8: the spec's concrete missing-column scenario. -/
theorem search_unknown_column_witness :
    search_dataframe exTable "missingcol" "x" = Except.error EngineError.UnknownColumn :=
  (search_unknown_column exTable "missingcol" "x").mpr (by decide)

/-- C10: filtering is idempotent, so running the same search on its own
result returns that result unchanged. -/
theorem search_idempotent (T R : Table) (C s : String)
    (h : search_dataframe T C s = Except.ok R) :
    search_dataframe R C s = Except.ok R := by
  unfold search_dataframe at h ⊢
  by_cases hC : C ∈ T.cols
  · rw [if_pos hC] at h
    injection h with h
    subst h
    rw [if_pos hC]
    simp only [Except.ok.injEq, Table.mk.injEq, true_and]
    exact List.filter_eq_self.mpr (fun r hr => (List.mem_filter.mp hr).2)
  · rw [if_neg hC] at h
    cases h

/-- Witness for C10: the covid search applied twice. -/
theorem search_idempotent_witness :
    search_dataframe exResult "title" "covid" = Except.ok exResult :=
  search_idempotent exTable exResult "title" "covid" (by rfl)

/-- C9: after a successful load the parsed table is cached, so a second
load of the same path returns the same table, leaves the cache unchanged
and performs no re-parse. -/
theorem load_data_cached (parse : String → Option Table) (s s' : LoadState)
    (p : String) (t : Table) (b : Bool)
    (h : load_data parse s p = (some t, s', b)) :
    load_data parse s' p = (some t, s', false) := by
  unfold load_data at h ⊢
  cases hl : List.lookup p s.cache with
  | some u =>
    rw [hl] at h
    simp only [Prod.mk.injEq, Option.some.injEq] at h
    obtain ⟨h1, h2, h3⟩ := h
    subst h1; subst h2
    rw [hl]
  | none =>
    rw [hl] at h
    cases hp : parse p with
    | some u =>
      rw [hp] at h
      simp only [Prod.mk.injEq, Option.some.injEq] at h
      obtain ⟨h1, h2, h3⟩ := h
      subst h1; subst h2
      simp [List.lookup]
    | none =>
      rw [hp] at h
      simp only [Prod.mk.injEq] at h
      exact absurd h.1 (by simp)

/-- Witness for C9: first load parses and caches, second load hits. -/
theorem load_data_cached_witness :
    load_data exParse ⟨[("litcovid.export.all.tsv", exTable)]⟩ "litcovid.export.all.tsv"
      = (some exTable, ⟨[("litcovid.export.all.tsv", exTable)]⟩, false) :=
  load_data_cached exParse ⟨[]⟩ ⟨[("litcovid.export.all.tsv", exTable)]⟩
    "litcovid.export.all.tsv" exTable true (by rfl)

/-- Inserting yields a permutation of the element consed onto the list. -/
theorem insDesc_perm (x : String × Nat) (l : List (String × Nat)) :
    List.Perm (insDesc x l) (x :: l) := by
  induction l with
  | nil => exact List.Perm.refl _
  | cons y ys ih =>
    unfold insDesc
    split
    · exact List.Perm.refl _
    · exact (List.Perm.cons y ih).trans (List.Perm.swap x y ys)

/-- The sort returns a permutation of its input. -/
theorem sortCountDesc_perm (l : List (String × Nat)) :
    List.Perm (sortCountDesc l) l := by
  induction l with
  | nil => exact List.Perm.refl _
  | cons x xs ih =>
    exact (insDesc_perm x (sortCountDesc xs)).trans (List.Perm.cons x ih)

/-- Insertion keeps the list sorted by count descending. -/
theorem insDesc_sorted (x : String × Nat) (l : List (String × Nat))
    (h : l.Pairwise (fun a b => b.2 ≤ a.2)) :
    (insDesc x l).Pairwise (fun a b => b.2 ≤ a.2) := by
  induction l with
  | nil => simp [insDesc]
  | cons y ys ih =>
    rw [List.pairwise_cons] at h
    obtain ⟨hy, hys⟩ := h
    unfold insDesc
    split
    · rename_i hxy
      refine List.Pairwise.cons ?_ (List.pairwise_cons.mpr ⟨hy, hys⟩)
      intro z hz
      rcases List.mem_cons.mp hz with rfl | hz'
      · exact hxy
      · exact le_trans (hy z hz') hxy
    · rename_i hxy
      refine List.Pairwise.cons ?_ (ih hys)
      intro z hz
      rcases List.mem_cons.mp ((insDesc_perm x ys).mem_iff.mp hz) with rfl | hz'
      · exact le_of_not_le hxy
      · exact hy z hz'

/-- The whole sort is sorted by count descending. -/
theorem sortCountDesc_sorted (l : List (String × Nat)) :
    (sortCountDesc l).Pairwise (fun a b => b.2 ≤ a.2) := by
  induction l with
  | nil => simp [sortCountDesc]
  | cons x xs ih => exact insDesc_sorted x _ ih

/-- Stability: any pairwise relation that automatically holds backwards
across a strict count increase survives the insertion. -/
theorem insDesc_pairwise (Q : String × Nat → String × Nat → Prop)
    (hlt : ∀ a b : String × Nat, a.2 < b.2 → Q b a)
    (x : String × Nat) (l : List (String × Nat))
    (h : l.Pairwise Q) (hx : ∀ y ∈ l, Q x y) :
    (insDesc x l).Pairwise Q := by
  induction l with
  | nil => simp [insDesc]
  | cons y ys ih =>
    rw [List.pairwise_cons] at h
    obtain ⟨hy, hys⟩ := h
    unfold insDesc
    split
    · exact List.Pairwise.cons hx (List.pairwise_cons.mpr ⟨hy, hys⟩)
    · rename_i hxy
      refine List.Pairwise.cons ?_
        (ih hys (fun z hz => hx z (List.mem_cons_of_mem y hz)))
      intro z hz
      rcases List.mem_cons.mp ((insDesc_perm x ys).mem_iff.mp hz) with rfl | hz'
      · exact hlt z y (Nat.not_le.mp hxy)
      · exact hy z hz'

/-- Stability for the whole sort. -/
theorem sortCountDesc_pairwise (Q : String × Nat → String × Nat → Prop)
    (hlt : ∀ a b : String × Nat, a.2 < b.2 → Q b a)
    (l : List (String × Nat)) (h : l.Pairwise Q) :
    (sortCountDesc l).Pairwise Q := by
  induction l with
  | nil => simp [sortCountDesc]
  | cons x xs ih =>
    rw [List.pairwise_cons] at h
    obtain ⟨hx, hxs⟩ := h
    exact insDesc_pairwise Q hlt x _ (ih hxs)
      (fun y hy => hx y ((sortCountDesc_perm xs).mem_iff.mp hy))

/-- Unfolding of the strict-greater count over a cons. -/
theorem countGT_cons (g : String) (c d : Nat) (tl : List (String × Nat)) :
    countGT ((g, c) :: tl) d = countGT tl d + if d < c then 1 else 0 := by
  unfold countGT
  rw [List.countP_cons]
  simp

/-- Nothing exceeds an upper bound of the list. -/
theorem countGT_eq_zero (tl : List (String × Nat)) (c : Nat)
    (h : ∀ x ∈ tl, x.2 ≤ c) : countGT tl c = 0 := by
  unfold countGT
  exact List.countP_eq_zero.mpr (fun x hx => by
    simp only [decide_eq_true_eq]
    exact Nat.not_lt.mpr (h x hx))

/-- The rank-window walk over a sorted tail below the bound `c0` produces
exactly the competition ranks: the previous rank for peers of `c0`, and
`pos` plus the number of strictly greater counts otherwise. -/
theorem ranksFrom_eq (rest : List (String × Nat)) :
    ∀ pos c0 r0 : Nat, (∀ x ∈ rest, x.2 ≤ c0) →
      rest.Pairwise (fun a b => b.2 ≤ a.2) →
      ranksFrom pos c0 r0 rest
        = rest.map (fun x =>
            ⟨x.1, x.2, if x.2 = c0 then r0 else pos + countGT rest x.2⟩) := by
  induction rest with
  | nil =>
    intro pos c0 r0 _ _
    rfl
  | cons hd tl ih =>
    intro pos c0 r0 hle hsorted
    obtain ⟨g, c⟩ := hd
    rw [List.pairwise_cons] at hsorted
    obtain ⟨hhd, htl⟩ := hsorted
    have hc : c ≤ c0 := hle (g, c) (List.mem_cons_self _ _)
    have h0 : countGT tl c = 0 := countGT_eq_zero tl c (fun x hx => hhd x hx)
    by_cases hcc : c = c0
    · subst hcc
      simp only [ranksFrom]
      rw [if_pos trivial]
      rw [ih (pos + 1) c r0 (fun x hx => hhd x hx) htl]
      rw [List.map_cons]
      refine List.cons_eq_cons.mpr ⟨by simp, ?_⟩
      rw [List.map_eq_map_iff]
      intro x hx
      by_cases hx0 : x.2 = c
      · simp [hx0]
      · have hxlt : x.2 < c := lt_of_le_of_ne (hhd x hx) hx0
        rw [if_neg hx0, if_neg hx0, countGT_cons, if_pos hxlt]
        simp only [RankedEntry.mk.injEq, true_and]
        omega
    · simp only [ranksFrom]
      rw [if_neg hcc]
      rw [ih (pos + 1) c pos (fun x hx => hhd x hx) htl]
      rw [List.map_cons]
      refine List.cons_eq_cons.mpr ⟨?_, ?_⟩
      · rw [if_neg hcc, countGT_cons, h0]
        simp
      · rw [List.map_eq_map_iff]
        intro x hx
        have hxle : x.2 ≤ c := hhd x hx
        have hxc0 : x.2 ≠ c0 := by
          intro hh
          exact hcc (le_antisymm hc (hh ▸ hxle))
        rw [if_neg hxc0]
        by_cases hxc : x.2 = c
        · rw [if_pos hxc, countGT_cons, hxc, h0]
          simp
        · have hxlt : x.2 < c := lt_of_le_of_ne hxle hxc
          rw [if_neg hxc, countGT_cons, if_pos hxlt]
          simp only [RankedEntry.mk.injEq, true_and]
          omega

/-- Over a count-descending list the window rank of every entry equals one
plus the number of entries with a strictly greater count (competition
ranking, as Vega's rank() computes it). -/
theorem assignRanks_eq (L : List (String × Nat))
    (h : L.Pairwise (fun a b => b.2 ≤ a.2)) :
    assignRanks L = L.map (fun x => ⟨x.1, x.2, 1 + countGT L x.2⟩) := by
  cases L with
  | nil => rfl
  | cons hd tl =>
    obtain ⟨g, c⟩ := hd
    rw [List.pairwise_cons] at h
    obtain ⟨hhd, htl⟩ := h
    have h0 : countGT tl c = 0 := countGT_eq_zero tl c (fun x hx => hhd x hx)
    simp only [assignRanks]
    rw [ranksFrom_eq tl 2 c 1 (fun x hx => hhd x hx) htl]
    rw [List.map_cons]
    refine List.cons_eq_cons.mpr ⟨?_, ?_⟩
    · rw [countGT_cons, h0]
      simp
    · rw [List.map_eq_map_iff]
      intro x hx
      by_cases hxc : x.2 = c
      · rw [if_pos hxc, countGT_cons, hxc, h0]
        simp
      · have hxlt : x.2 < c := lt_of_le_of_ne (hhd x hx) hxc
        rw [if_neg hxc, countGT_cons, if_pos hxlt]
        simp only [RankedEntry.mk.injEq, true_and]
        omega

/-- Amended C5: a nonpositive cutoff is not rejected.  Ranks are
nonnegative, the filter `rank < top_n` keeps nothing, and the empty
ranking is returned; the pipeline has no failure path, so no InvalidSpec
failure can occur. -/
theorem generate_barplot_nonpos (results : Table) (col : String) (n : Int)
    (h : n ≤ 0) : generate_barplot results col n = [] := by
  unfold generate_barplot
  rw [List.filter_eq_nil_iff]
  intro e _
  simp only [decide_eq_true_eq]
  intro hlt
  omega

/-- Witness for the amended C5. -/
theorem generate_barplot_nonpos_witness :
    generate_barplot exTable3 "journal" (-1) = [] :=
  generate_barplot_nonpos exTable3 "journal" (-1) (by decide)

/-- C5 fails on the code: the pipeline performs no validation of the
cutoff; at N = 0 it returns the empty ranking as a normal value rather
than failing with InvalidSpec. -/
theorem generate_barplot_zero_cutoff :
    generate_barplot exTable "journal" 0 = [] := by decide

/-- C2 fails on the code: three groups tied at count 1 all receive rank 1,
and the filter rank < 2 keeps all three, so a top-2 request returns three
entries, not min(2, 3) = 2. -/
theorem generate_barplot_exceeds_cutoff :
    generate_barplot exTable3 "journal" 2
        = [⟨"Nature", 1, 1⟩, ⟨"Science", 1, 1⟩, ⟨"Cell", 1, 1⟩] ∧
      (generate_barplot exTable3 "journal" 2).length ≠ 2 := by decide

/-- C3 fails on the code: with two groups tied at count 1, the rank window
gives both rank 1 — the returned rank sequence is 1,1, not the strictly
increasing 1,2 that the claim requires for two entries. -/
theorem generate_barplot_tied_ranks :
    (generate_barplot exTableTie "journal" 10).map RankedEntry.rank = [1, 1] ∧
      ([1, 1] : List Nat) ≠ [1, 2] := by decide

/-- Amended C3: ranks follow competition ranking — every returned entry's
rank is one plus the number of distinct groups whose count strictly
exceeds its own.  Ranks therefore start at 1 and are non-decreasing, but
groups with equal counts share a rank and gaps follow ties. -/
theorem generate_barplot_rank_competition (results : Table) (col : String)
    (n : Int) (e : RankedEntry) (he : e ∈ generate_barplot results col n) :
    e.rank = 1 + countGT (aggCounts (colValues results col)) e.count := by
  unfold generate_barplot at he
  rw [assignRanks_eq _ (sortCountDesc_sorted _)] at he
  have he' := List.mem_of_mem_filter he
  obtain ⟨x, hx, rfl⟩ := List.mem_map.mp he'
  show 1 + countGT (sortCountDesc (aggCounts (colValues results col))) x.2
      = 1 + countGT (aggCounts (colValues results col)) x.2
  unfold countGT
  rw [List.Perm.countP_eq _ (sortCountDesc_perm (aggCounts (colValues results col)))]

/-- Witness for the amended C3. -/
theorem generate_barplot_rank_competition_witness :
    (⟨"Nature", 1, 1⟩ : RankedEntry) ∈ generate_barplot exTableTie "journal" 10 ∧
      (⟨"Nature", 1, 1⟩ : RankedEntry).rank
        = 1 + countGT (aggCounts (colValues exTableTie "journal"))
            (⟨"Nature", 1, 1⟩ : RankedEntry).count :=
  ⟨by decide, generate_barplot_rank_competition exTableTie "journal" 10 _ (by decide)⟩

/-- Keys after a bump: unchanged when the group is present, otherwise the
group is appended at the end. -/
theorem bump_keys (g : String) (l : List (String × Nat)) :
    (bump g l).map Prod.fst
      = if g ∈ l.map Prod.fst then l.map Prod.fst else l.map Prod.fst ++ [g] := by
  induction l with
  | nil => simp [bump]
  | cons y ys ih =>
    obtain ⟨h, n⟩ := y
    by_cases hgh : g = h
    · subst hgh
      simp [bump]
    · simp only [bump, if_neg hgh, List.map_cons, ih]
      by_cases hmem : g ∈ ys.map Prod.fst
      · rw [if_pos hmem, if_pos (List.mem_cons_of_mem h hmem)]
      · rw [if_neg hmem,
          if_neg (fun hh => (List.mem_cons.mp hh).elim hgh hmem)]
        simp

/-- The aggregate's group keys are exactly the values that occur. -/
theorem aggCounts_keys_mem (vs : List String) :
    ∀ g, g ∈ (aggCounts vs).map Prod.fst ↔ g ∈ vs := by
  induction vs using List.reverseRecOn with
  | nil =>
    intro g
    simp [aggCounts]
  | append_singleton vs v ih =>
    intro g
    unfold aggCounts at ih ⊢
    rw [List.foldl_append, List.foldl_cons, List.foldl_nil, bump_keys]
    by_cases hmem : v ∈ (List.foldl (fun acc v => bump v acc) [] vs).map Prod.fst
    · rw [if_pos hmem, ih g]
      have hv : v ∈ vs := (ih v).mp hmem
      simp only [List.mem_append, List.mem_singleton]
      constructor
      · exact fun hh => Or.inl hh
      · rintro (hh | rfl)
        · exact hh
        · exact hv
    · rw [if_neg hmem]
      simp only [List.mem_append, ih g]

/-- Appending a fresh value does not move the first occurrence of a value
already present. -/
theorem firstIdx_append_of_mem (vs : List String) (w g : String)
    (h : g ∈ vs) : firstIdx (vs ++ [w]) g = firstIdx vs g := by
  induction vs with
  | nil => cases h
  | cons v vs ih =>
    by_cases hv : v = g
    · simp [firstIdx, hv]
    · rw [List.cons_append]
      simp only [firstIdx]
      rw [if_neg hv, if_neg hv, ih (List.mem_of_ne_of_mem (Ne.symm hv) h)]

/-- The first occurrence of a present value lies inside the list. -/
theorem firstIdx_lt_length (vs : List String) (g : String) (h : g ∈ vs) :
    firstIdx vs g < vs.length := by
  induction vs with
  | nil => cases h
  | cons v vs ih =>
    by_cases hv : v = g
    · simp [firstIdx, hv]
    · simp only [firstIdx]
      rw [if_neg hv, List.length_cons]
      have := ih (List.mem_of_ne_of_mem (Ne.symm hv) h)
      omega

/-- A value that is appended after an absent run first occurs at the end. -/
theorem firstIdx_append_self (vs : List String) (w : String) (h : w ∉ vs) :
    firstIdx (vs ++ [w]) w = vs.length := by
  induction vs with
  | nil => simp [firstIdx]
  | cons v vs ih =>
    rw [List.cons_append]
    simp only [firstIdx]
    rw [if_neg (fun hh => h (by rw [← hh]; exact List.mem_cons_self v vs))]
    rw [ih (fun hh => h (List.mem_cons_of_mem v hh)), List.length_cons]
    omega

/-- The aggregate's group keys appear in strictly increasing order of their
first occurrence in the value list. -/
theorem aggCounts_keys_pairwise (vs : List String) :
    ((aggCounts vs).map Prod.fst).Pairwise
      (fun a b => firstIdx vs a < firstIdx vs b) := by
  induction vs using List.reverseRecOn with
  | nil => simp [aggCounts]
  | append_singleton vs v ih =>
    have hmemiff := aggCounts_keys_mem vs
    unfold aggCounts at ih hmemiff ⊢
    rw [List.foldl_append, List.foldl_cons, List.foldl_nil, bump_keys]
    by_cases hmem : v ∈ (List.foldl (fun acc v => bump v acc) [] vs).map Prod.fst
    · rw [if_pos hmem]
      refine List.Pairwise.imp_of_mem ?_ ih
      intro a b ha hb hab
      rw [firstIdx_append_of_mem vs v a ((hmemiff a).mp ha),
        firstIdx_append_of_mem vs v b ((hmemiff b).mp hb)]
      exact hab
    · rw [if_neg hmem, List.pairwise_append]
      refine ⟨?_, ?_, ?_⟩
      · refine List.Pairwise.imp_of_mem ?_ ih
        intro a b ha hb hab
        rw [firstIdx_append_of_mem vs v a ((hmemiff a).mp ha),
          firstIdx_append_of_mem vs v b ((hmemiff b).mp hb)]
        exact hab
      · simp
      · intro a ha b hb
        rw [List.mem_singleton] at hb
        rw [hb]
        have ha' : a ∈ vs := (hmemiff a).mp ha
        have hv : v ∉ vs := fun hh => hmem ((hmemiff v).mpr hh)
        rw [firstIdx_append_of_mem vs v a ha', firstIdx_append_self vs v hv]
        exact firstIdx_lt_length vs a ha'

/-- C4: the returned entries are ordered by count descending (counts are
non-increasing along the sequence), and entries with equal counts are
ordered by the first occurrence of their group value in the result set. -/
theorem generate_barplot_order (results : Table) (col : String) (n : Int) :
    (generate_barplot results col n).Pairwise (fun a b =>
      b.count ≤ a.count ∧
        (a.count = b.count →
          firstIdx (colValues results col) a.group
            < firstIdx (colValues results col) b.group)) := by
  unfold generate_barplot
  apply List.Pairwise.filter
  rw [assignRanks_eq _ (sortCountDesc_sorted _)]
  rw [List.pairwise_map]
  have hQ : (aggCounts (colValues results col)).Pairwise
      (fun a b : String × Nat => a.2 = b.2 →
        firstIdx (colValues results col) a.1 < firstIdx (colValues results col) b.1) := by
    have h1 := aggCounts_keys_pairwise (colValues results col)
    rw [List.pairwise_map] at h1
    refine List.Pairwise.imp ?_ h1
    intro a b hab
    exact fun _ => hab
  have hQ' := sortCountDesc_pairwise
    (fun a b : String × Nat => a.2 = b.2 →
      firstIdx (colValues results col) a.1 < firstIdx (colValues results col) b.1)
    (fun a b hab hba => absurd hba (Nat.ne_of_gt hab))
    (aggCounts (colValues results col)) hQ
  exact List.Pairwise.and (sortCountDesc_sorted _) hQ'
